import Mathlib

/-!
Verification of the `console` terminal library (Go).

The development shallowly embeds the two core subsystems:
* the cell-grid frame buffer (`frame` package: `Frame`, `At`, `Set`,
  `FillRect`, `ClearRect`, `PutText`, `PrintRect`, `SubFrame`), and
* the escape-sequence key decoder (`console` package: `parseKey`,
  `parseESC`, `parseCSI`, `parseSS3`),
together with the color/escape formatting (`FormatColor`, `FormatMoveTo`).

Go slices sharing one backing array are modelled by an explicit root store
(`Store`, a list of cells) plus, in each `Frame`, the offset `off` at which
the frame's slice starts inside that root store (Go: `f.Data = root[off:]`).
Machine integers are modelled as `Int` (Go `int`, coordinates) and `Nat`
(Go `uint8` components, bytes).  A Go `panic` is modelled as `Option.none`.
`for` loops of the form `for i := a; i < b; i++` are modelled by structural
recursion on the trip count `(b - a).toNat`, carrying the loop variable.
-/

/-- `image.Point` (Go standard library): a pair of integer coordinates. -/
structure Pt where
  x : Int
  y : Int
deriving DecidableEq, Repr

/-- `image.Rectangle` (Go standard library): half-open rectangle `[min, max)`. -/
structure Rect where
  min : Pt
  max : Pt
deriving DecidableEq, Repr

/-- `Rectangle.Dx`: width. -/
def Rect.dx (r : Rect) : Int := r.max.x - r.min.x

/-- `Rectangle.Dy`: height. -/
def Rect.dy (r : Rect) : Int := r.max.y - r.min.y

/-- `Rectangle.Empty`: `r.Min.X >= r.Max.X || r.Min.Y >= r.Max.Y`. -/
def Rect.isEmpty (r : Rect) : Bool :=
  decide (r.max.x ≤ r.min.x) || decide (r.max.y ≤ r.min.y)

/-- `Point.In`: `r.Min.X <= p.X < r.Max.X && r.Min.Y <= p.Y < r.Max.Y`. -/
def ptIn (x y : Int) (r : Rect) : Bool :=
  decide (r.min.x ≤ x) && decide (x < r.max.x) &&
  decide (r.min.y ≤ y) && decide (y < r.max.y)

/-- `Rectangle.Intersect` (Go standard library): clip each corner with the
other rectangle's, then return the zero rectangle if the result is empty. -/
def Rect.intersect (r s : Rect) : Rect :=
  let minx := if r.min.x < s.min.x then s.min.x else r.min.x
  let miny := if r.min.y < s.min.y then s.min.y else r.min.y
  let maxx := if s.max.x < r.max.x then s.max.x else r.max.x
  let maxy := if s.max.y < r.max.y then s.max.y else r.max.y
  let t : Rect := ⟨⟨minx, miny⟩, ⟨maxx, maxy⟩⟩
  if t.isEmpty then ⟨⟨0, 0⟩, ⟨0, 0⟩⟩ else t

/-- `console.Color`: a VT100 colour; `Attr`, `Fore`, `Back` are Go `uint8`. -/
structure Color where
  Attr : Nat
  Fore : Nat
  Back : Nat
deriving DecidableEq, Repr

/-- The zero `console.Color` (Go `Color{}`). -/
def Color.zero : Color := ⟨0, 0, 0⟩

/-- `console.FormatColor`: escape sequence for a colour triple.
Go panics on an out-of-range component; a panic is modelled as `none`.
(`attr < 0` etc. are vacuous for `uint8`, hence for `Nat`.) -/
def FormatColor (attr fore back : Nat) : Option String :=
  if 8 < attr then none
  else if 7 < fore then none
  else if 7 < back then none
  else some ("\x1b[" ++ toString attr ++ ";" ++ toString (fore + 30) ++ ";"
             ++ toString (back + 40) ++ "m")

/-- `Color.String`: `FormatColor` on the components. -/
def Color.string (c : Color) : Option String := FormatColor c.Attr c.Fore c.Back

/-- `console.FormatMoveTo`: `ESC[line;columnH`. -/
def FormatMoveTo (line column : Int) : String :=
  "\x1b[" ++ toString line ++ ";" ++ toString column ++ "H"

/-- `frame.Cell`: a unicode rune (Go `rune` = `int32`, modelled as `Int`)
paired with a `console.Color`. -/
structure Cell where
  R : Int
  C : Color
deriving DecidableEq, Repr

/-- The zero `frame.Cell` (Go `Cell{}`). -/
def Cell.zero : Cell := ⟨0, Color.zero⟩

/-- The shared backing storage of a root frame (Go: the array underlying
the `Data` slices of a root frame and all its sub-frames). -/
abbrev Store := List Cell

/-- Read the cell at index `i` of the store.  Go panics when `i` is outside
the slice; within the reachable-frame invariant proved below this case
never occurs, and it is given the zero cell here. -/
def storeGet (s : Store) (i : Int) : Cell :=
  if h : 0 ≤ i ∧ i.toNat < s.length then s.get ⟨i.toNat, h.2⟩ else Cell.zero

/-- Write the cell at index `i` of the store (out-of-range writes are
dropped; as for `storeGet` they never occur on reachable frames). -/
def storeSet (s : Store) (i : Int) (c : Cell) : Store :=
  if 0 ≤ i then s.set i.toNat c else s

/-- `frame.Frame`: `off` is where this frame's `Data` slice starts inside
the root store (Go: `Data = root[off:]`), `bounds` and `stride` are the
`Bounds` and `Stride` fields. -/
structure Frame where
  off : Int
  bounds : Rect
  stride : Int
deriving DecidableEq, Repr

/-- `frame.New`: the frame header (`Bounds: r`, `Stride: r.Dx()`, fresh
storage starting at offset 0). -/
def Frame.New (r : Rect) : Frame := ⟨0, r, r.dx⟩

/-- `frame.New`: the fresh storage, `make([]Cell, w*h)` (all cells zero).
Go panics when `w*h` is negative; the `Reachable` invariant below requires
`0 ≤ w*h` for root frames. -/
def newData (r : Rect) : Store := List.replicate (r.dx * r.dy).toNat Cell.zero

/-- `Frame.CellOffset`: `(y-f.Bounds.Min.Y)*f.Stride + (x - f.Bounds.Min.X)`. -/
def Frame.cellOffset (f : Frame) (x y : Int) : Int :=
  (y - f.bounds.min.y) * f.stride + (x - f.bounds.min.x)

/-- `Frame.At`: the cell at `(x, y)`, or the zero cell out of bounds. -/
def Frame.At (f : Frame) (s : Store) (x y : Int) : Cell :=
  if ptIn x y f.bounds then storeGet s (f.off + f.cellOffset x y) else Cell.zero

/-- `Frame.Set`: replace the cell at `(x, y)` if it is within bounds. -/
def Frame.Set (f : Frame) (s : Store) (x y : Int) (c : Cell) : Store :=
  if ptIn x y f.bounds then storeSet s (f.off + f.cellOffset x y) c else s

/-- Inner loop of `Frame.FillRect`: `for x := r.Min.X; x < r.Max.X; x++`,
by trip count. -/
def fillRow (s : Store) (f : Frame) (c : Cell) (yr x : Int) : Nat → Store
  | 0 => s
  | n + 1 => fillRow (f.Set s x yr c) f c yr (x + 1) n

/-- Outer loop of `Frame.FillRect`: `for y := r.Min.Y; y < r.Max.Y; y++`,
by trip count; each iteration runs the inner loop over the full row. -/
def fillRows (s : Store) (f : Frame) (c : Cell) (xmin : Int) (w : Nat) (y : Int) :
    Nat → Store
  | 0 => s
  | n + 1 => fillRows (fillRow s f c y xmin w) f c xmin w (y + 1) n

/-- `Frame.FillRect`: intersect with the bounds, return unchanged if empty,
otherwise set every cell of the intersection. -/
def Frame.FillRect (f : Frame) (s : Store) (r : Rect) (c : Cell) : Store :=
  let ri := f.bounds.intersect r
  if ri.isEmpty then s
  else fillRows s f c ri.min.x ri.dx.toNat ri.min.y ri.dy.toNat

/-- `Frame.Fill`. -/
def Frame.Fill (f : Frame) (s : Store) (c : Cell) : Store :=
  f.FillRect s f.bounds c

/-- `Frame.ClearRect`: fill with `Cell{' ', console.Color{}}`. -/
def Frame.ClearRect (f : Frame) (s : Store) (r : Rect) : Store :=
  f.FillRect s r ⟨32, Color.zero⟩

/-- `Frame.Clear`. -/
def Frame.Clear (f : Frame) (s : Store) : Store :=
  f.ClearRect s f.bounds

/-- `Frame.SubFrame`: intersect `r` with the bounds; empty intersection
gives the zero frame (`new(Frame)`), otherwise a frame sharing the store,
whose slice starts `CellOffset(r.Min.X, r.Min.Y)` further in. -/
def Frame.SubFrame (f : Frame) (r : Rect) : Frame :=
  let ri := r.intersect f.bounds
  if ri.isEmpty then ⟨0, ⟨⟨0, 0⟩, ⟨0, 0⟩⟩, 0⟩
  else ⟨f.off + f.cellOffset ri.min.x ri.min.y, ri, f.stride⟩

/-- The frames reachable in the program: a root frame made by `frame.New`
on a store of the size `New` allocates (`0 ≤ w*h`, else Go's `make`
panics), and any `SubFrame` of a reachable frame.  The store index is its
length only: mutation through `Set` preserves it. -/
inductive Reachable : Nat → Frame → Prop
  | root (r : Rect) (h : 0 ≤ r.dx * r.dy) :
      Reachable (r.dx * r.dy).toNat (Frame.New r)
  | sub {n : Nat} {f : Frame} (hf : Reachable n f) (r : Rect) :
      Reachable n (f.SubFrame r)

/-- An argument of `Frame.PutText` (Go `interface{}` value): a string, a
`console.Color`, or anything else (which makes `PutText` panic). -/
inductive PutItem where
  | str (s : String)
  | color (c : Color)
  | other
deriving DecidableEq, Repr

/-- The string case of `Frame.PutText`: `for _, r := range o { f.Set(x, y,
Cell{r, col}); x++ }` — writes every rune and advances the cursor, with no
right-bound check inside the string. -/
def putStr (f : Frame) (s : Store) (y : Int) (col : Color) (x : Int) :
    List Char → Store × Int
  | [] => (s, x)
  | ch :: rest => putStr f (f.Set s x y ⟨(ch.toNat : Int), col⟩) y col (x + 1) rest

/-- The item loop of `Frame.PutText`: before each item, stop if the cursor
has reached the right bound; a string writes and advances, a colour changes
the running colour, anything else panics (`none`). -/
def putLoop (f : Frame) (s : Store) (y : Int) (x : Int) (col : Color) :
    List PutItem → Option Store
  | [] => some s
  | v :: rest =>
    if f.bounds.max.x ≤ x then some s
    else
      match v with
      | .str o =>
        let p := putStr f s y col x o.data
        putLoop f p.1 y p.2 col rest
      | .color c => putLoop f s y x c rest
      | .other => none

/-- `Frame.PutText`: return at once when `y` is outside the vertical
bounds, otherwise run the item loop with the zero colour. -/
def Frame.PutText (f : Frame) (s : Store) (x y : Int) (vals : List PutItem) :
    Option Store :=
  if y < f.bounds.min.y ∨ f.bounds.max.y ≤ y then some s
  else putLoop f s y x Color.zero vals

/-- One piece appended to `printBuf` by `Frame.PrintRect`: a
`FormatMoveTo` sequence, a colour escape (`col.String()`), or one encoded
rune. -/
inductive POut where
  | moveTo (line column : Int)
  | setColor (c : Color)
  | glyph (r : Int)
deriving DecidableEq, Repr

/-- Inner loop of `Frame.PrintRect` over one row: look the cell up with
`At`, substitute a space for the zero rune, emit a colour escape when the
running colour changes, then emit the rune.  Returns the emitted pieces
and the running colour after the row. -/
def printRow (s : Store) (f : Frame) (y x : Int) (col : Color) :
    Nat → List POut × Color
  | 0 => ([], col)
  | n + 1 =>
    let cell := f.At s x y
    let g : Int := if cell.R = 0 then 32 else cell.R
    if col = cell.C then
      let p := printRow s f y (x + 1) col n
      (POut.glyph g :: p.1, p.2)
    else
      let p := printRow s f y (x + 1) cell.C n
      (POut.setColor cell.C :: POut.glyph g :: p.1, p.2)

/-- Outer loop of `Frame.PrintRect`: per row, first `FormatMoveTo(y+1,
r.Min.X)`, then the row's cells; the running colour persists across rows. -/
def printRows (s : Store) (f : Frame) (xmin : Int) (w : Nat) (y : Int)
    (col : Color) : Nat → List POut
  | 0 => []
  | n + 1 =>
    let p := printRow s f y xmin col w
    POut.moveTo (y + 1) xmin :: (p.1 ++ printRows s f xmin w (y + 1) p.2 n)

/-- `Frame.PrintRect`, as the sequence of pieces appended to `printBuf`:
the loops run over `r` itself (`for y := r.Min.Y; y < r.Max.Y; y++`,
`for x := r.Min.X; x < r.Max.X; x++`), with the running colour starting at
the zero value of the local `var col console.Color`. -/
def printRectTokens (s : Store) (f : Frame) (r : Rect) : List POut :=
  printRows s f r.min.x r.dx.toNat r.min.y Color.zero r.dy.toNat

/-- `utf8.EncodeRune`, at the level of unicode scalar values: a valid
scalar is emitted as itself, anything else as `RuneError` (U+FFFD).
(A Lean `String` is UTF-8 encoded, so its characters correspond exactly
to the bytes Go writes.) -/
def encodeRune (r : Int) : Char :=
  if 0 ≤ r ∧ (r < 0xD800 ∨ (0xDFFF < r ∧ r ≤ 0x10FFFF)) then Char.ofNat r.toNat
  else Char.ofNat 0xFFFD

/-- The bytes one `POut` piece contributes to `printBuf`.  A colour whose
components are out of range makes `col.String()` panic (`none`). -/
def renderOut : POut → Option String
  | .moveTo l c => some (FormatMoveTo l c)
  | .setColor c => c.string
  | .glyph r => some (String.singleton (encodeRune r))

/-- `Frame.PrintRect`: the full byte string written to the console, or
`none` if a colour escape panics along the way. -/
def Frame.PrintRect (f : Frame) (s : Store) (r : Rect) : Option String :=
  ((printRectTokens s f r).mapM renderOut).map String.join

/-- Key codes (`console` package).  In the Go `const` block `iota` is 4 at
`K_UP = 0xE000 + iota`, so the arrow block starts at `0xE004`. -/
def K_TAB : Nat := 9
def K_ENTER : Nat := 13
def K_ESCAPE : Nat := 27
def K_BACKSPACE : Nat := 127
def K_UP : Nat := 0xE004
def K_DOWN : Nat := 0xE005
def K_RIGHT : Nat := 0xE006
def K_LEFT : Nat := 0xE007
def K_HOME : Nat := 0xE008
def K_END : Nat := 0xE009
def K_PAGEUP : Nat := 0xE00A
def K_PAGEDOWN : Nat := 0xE00B
def K_INSERT : Nat := 0xE00C
def K_DELETE : Nat := 0xE00D

/-- `console.parseSS3`: length guard, then `switch buf[0]` with cases
`'H'` (72) and `'F'` (70); a Go `switch` on a byte is an equality chain. -/
def parseSS3 (buf : List Nat) : Nat :=
  if buf.length < 1 then 0
  else
    match buf with
    | b :: _ => if b = 72 then K_HOME else if b = 70 then K_END else 0
    | [] => 0

/-- `console.parseCSI`: length guard, then `switch string(buf)` against
the literal table; a Go `switch` on a string is an equality chain.
The byte values: `A` 65, `B` 66, `C` 67, `D` 68, `2~` 50 126, `3~` 51 126,
`5~` 53 126, `6~` 54 126. -/
def parseCSI (buf : List Nat) : Nat :=
  if buf.length < 1 then 0
  else if buf = [65] then K_UP
  else if buf = [66] then K_DOWN
  else if buf = [67] then K_RIGHT
  else if buf = [68] then K_LEFT
  else if buf = [50, 126] then K_INSERT
  else if buf = [51, 126] then K_DELETE
  else if buf = [53, 126] then K_PAGEUP
  else if buf = [54, 126] then K_PAGEDOWN
  else 0

/-- `console.parseESC`: a lone ESC is the Escape key; `switch buf[0]` with
cases `'['` (91) and `'O'` (79) recurses. -/
def parseESC (buf : List Nat) : Nat :=
  if buf.length < 1 then K_ESCAPE
  else
    match buf with
    | b :: rest => if b = 91 then parseCSI rest else if b = 79 then parseSS3 rest else 0
    | [] => 0

/-- `console.parseKey`: length guard, then `switch buf[0]`: ESC (27)
recurses, the default case is the byte's own ordinal value. -/
def parseKey (buf : List Nat) : Nat :=
  if buf.length < 1 then 0
  else
    match buf with
    | b :: rest => if b = 27 then parseESC rest else b
    | [] => 0

/-! ### Spec-side vocabulary

Definitions below this point are not translations of the source: they are
the vocabulary needed to state the specification's claims (a reference
decoder written from the spec's words, and observers of the `PrintRect`
output and the `PutText` cursor). -/

/-- Spec table for CSI dispatch (spec §4.1, step 3): the remaining bytes
matched as a literal string against the fixed table, unknown otherwise. -/
def csiTable (l : List Nat) : Nat :=
  if l = [65] then K_UP
  else if l = [66] then K_DOWN
  else if l = [67] then K_RIGHT
  else if l = [68] then K_LEFT
  else if l = [50, 126] then K_INSERT
  else if l = [51, 126] then K_DELETE
  else if l = [53, 126] then K_PAGEUP
  else if l = [54, 126] then K_PAGEDOWN
  else 0

/-- Spec SS3 dispatch (spec §4.1, step 4): first remaining byte `H` is
Home, `F` is End, anything else or empty is unknown. -/
def ss3Spec : List Nat → Nat
  | [] => 0
  | b :: _ => if b = 72 then K_HOME else if b = 70 then K_END else 0

/-- Spec ESC dispatch (spec §4.1, step 2): no remaining byte is the Escape
key itself; `[` and `O` recurse; any other byte is unknown. -/
def escSpec : List Nat → Nat
  | [] => K_ESCAPE
  | b :: rest =>
    if b = 91 then csiTable rest else if b = 79 then ss3Spec rest else 0

/-- Spec root dispatch (spec §4.1, step 1, and the claim's wording): an
ESC first byte recurses into ESC handling, any other first byte is its own
ordinal value, the empty input is unknown (0). -/
def decodeSpec : List Nat → Nat
  | [] => 0
  | b :: rest => if b = 27 then escSpec rest else b

/-- Whether a `PrintRect` output piece is a cursor-position sequence. -/
def isMoveTo : POut → Bool
  | .moveTo _ _ => true
  | _ => false

/-- `n` consecutive integers starting at `lo`. -/
def intRange (lo : Int) : Nat → List Int
  | 0 => []
  | n + 1 => lo :: intRange (lo + 1) n

/-- The colour left in effect by a piece sequence: the last `setColor`
emitted, or the starting colour `d` if none was. -/
def lastSet (d : Color) : List POut → Color
  | [] => d
  | .setColor c :: ts => lastSet c ts
  | _ :: ts => lastSet d ts

/-- The colour in effect at each glyph of a piece sequence, starting from
colour `d`: the colour the terminal would draw each emitted rune in. -/
def glyphColors (d : Color) : List POut → List Color
  | [] => []
  | .setColor c :: ts => glyphColors c ts
  | .glyph _ :: ts => d :: glyphColors d ts
  | .moveTo _ _ :: ts => glyphColors d ts

/-- No redundant colour escape: starting from colour `d`, every `setColor`
in the sequence differs from the colour already in effect at that point. -/
def noRedundant (d : Color) : List POut → Prop
  | [] => True
  | .setColor c :: ts => d ≠ c ∧ noRedundant c ts
  | _ :: ts => noRedundant d ts

/-- The colours of the cells of one row of a rectangle, read through
`Frame.At` (the effective colour of each scanned cell). -/
def cellColorsRow (s : Store) (f : Frame) (y x : Int) : Nat → List Color
  | 0 => []
  | n + 1 => (f.At s x y).C :: cellColorsRow s f y (x + 1) n

/-- The colours of the cells of a rectangle, row by row. -/
def cellColorsRows (s : Store) (f : Frame) (xmin : Int) (w : Nat) (y : Int) :
    Nat → List Color
  | 0 => []
  | n + 1 => cellColorsRow s f y xmin w ++ cellColorsRows s f xmin w (y + 1) n

/-- The colours of the cells scanned by `PrintRect` over `r`, in scan
order. -/
def rectCellColors (s : Store) (f : Frame) (r : Rect) : List Color :=
  cellColorsRows s f r.min.x r.dx.toNat r.min.y r.dy.toNat

/-- The cursor column after a sequence of `PutText` items: each string
advances it by its number of runes, a colour marker leaves it unchanged. -/
def xAfter (x : Int) : List PutItem → Int
  | [] => x
  | .str o :: rest => xAfter (x + o.length) rest
  | _ :: rest => xAfter x rest

/-! ### The concrete scenario of spec §8

A frame of bounds `(0,0)-(3,2)`, cleared, then
`set(1, 1, Cell{'X', Color{0, RED, BLACK}})` (`'X' = 88`, `RED = 1`,
`BLACK = 0`). -/

/-- The bounds of the scenario frame. -/
def rectC1 : Rect := ⟨⟨0, 0⟩, ⟨3, 2⟩⟩

/-- The scenario frame. -/
def frameC1 : Frame := Frame.New rectC1

/-- The scenario store: fresh storage, cleared, then the `X` written. -/
def storeC1 : Store :=
  frameC1.Set (frameC1.Clear (newData rectC1)) 1 1 ⟨88, ⟨0, 1, 0⟩⟩

/-- Whether the string `out` begins with the string `pre` (by characters,
which for Lean's UTF-8 strings is also by bytes). -/
def beginsWith (out pre : String) : Bool :=
  decide (out.toList.take pre.toList.length = pre.toList)

/-! ### Geometry lemmas -/

theorem ptIn_iff {x y : Int} {r : Rect} :
    ptIn x y r = true ↔
      r.min.x ≤ x ∧ x < r.max.x ∧ r.min.y ≤ y ∧ y < r.max.y := by
  simp [ptIn, and_assoc]

theorem isEmpty_false_iff {r : Rect} :
    r.isEmpty = false ↔ r.min.x < r.max.x ∧ r.min.y < r.max.y := by
  simp [Rect.isEmpty]

theorem ptIn_nonempty {x y : Int} {r : Rect} (h : ptIn x y r = true) :
    r.isEmpty = false := by
  rw [ptIn_iff] at h; rw [isEmpty_false_iff]; omega

theorem nonempty_min_mem {r : Rect} (h : r.isEmpty = false) :
    ptIn r.min.x r.min.y r = true := by
  rw [isEmpty_false_iff] at h; rw [ptIn_iff]; omega

theorem ptIn_intersect {x y : Int} {r s : Rect} :
    ptIn x y (r.intersect s) = true ↔ ptIn x y r = true ∧ ptIn x y s = true := by
  unfold Rect.intersect
  simp only [ptIn_iff, Rect.isEmpty]
  split_ifs with h1 h2 h3 h4 h5 <;> (try simp_all) <;> omega

theorem intersect_dims {r s : Rect} (h : (r.intersect s).isEmpty = false) :
    (r.intersect s).dx ≤ s.dx ∧ (r.intersect s).dy ≤ s.dy := by
  unfold Rect.intersect Rect.dx Rect.dy at *
  simp only [Rect.isEmpty] at *
  split_ifs at * <;> (try simp_all) <;> (try omega)

/-! ### Store lemmas -/

theorem storeSet_length (s : Store) (i : Int) (c : Cell) :
    (storeSet s i c).length = s.length := by
  unfold storeSet; split <;> simp

theorem storeGet_set_self {s : Store} {i : Int} (h0 : 0 ≤ i)
    (hl : i.toNat < s.length) (c : Cell) :
    storeGet (storeSet s i c) i = c := by
  unfold storeGet storeSet
  rw [if_pos h0, dif_pos ⟨h0, by simpa using hl⟩]
  simp [List.get_eq_getElem, List.getElem_set_self]

theorem storeGet_set_ne {s : Store} {i j : Int} (c : Cell) (hne : i ≠ j) :
    storeGet (storeSet s i c) j = storeGet s j := by
  unfold storeGet storeSet
  by_cases h0 : 0 ≤ i
  · rw [if_pos h0]
    by_cases hj : 0 ≤ j ∧ j.toNat < s.length
    · rw [dif_pos ⟨hj.1, by simpa using hj.2⟩, dif_pos hj]
      have : i.toNat ≠ j.toNat := by omega
      simp [List.get_eq_getElem, List.getElem_set_ne this]
    · rw [dif_neg (by simpa using hj), dif_neg hj]
  · rw [if_neg h0]

/-! ### The frame invariant -/

/-- Well-formedness of a frame over a store of length `n`: the slice
offset is non-negative, the stride is at least the width, and every
in-bounds coordinate indexes inside the store. -/
def FrameInv (n : Nat) (f : Frame) : Prop :=
  0 ≤ f.off ∧
  (f.bounds.isEmpty = false → f.bounds.dx ≤ f.stride) ∧
  ∀ x y : Int, ptIn x y f.bounds = true →
    0 ≤ f.cellOffset x y ∧ f.off + f.cellOffset x y < (n : Int)

theorem reachable_inv {n : Nat} {f : Frame} (h : Reachable n f) : FrameInv n f := by
  induction h with
  | root r hr =>
    refine ⟨le_refl 0, fun _ => le_refl _, fun x y hxy => ?_⟩
    rw [ptIn_iff] at hxy
    unfold Frame.New Frame.cellOffset Rect.dx Rect.dy at *
    simp only at *
    have hcast : (((r.max.x - r.min.x) * (r.max.y - r.min.y)).toNat : Int)
        = (r.max.x - r.min.x) * (r.max.y - r.min.y) := Int.toNat_of_nonneg hr
    have hmul1 : 0 ≤ (y - r.min.y) * (r.max.x - r.min.x) :=
      mul_nonneg (by omega) (by omega)
    have hmul2 : (y - r.min.y) * (r.max.x - r.min.x)
        ≤ (r.max.y - r.min.y - 1) * (r.max.x - r.min.x) :=
      mul_le_mul_of_nonneg_right (by omega) (by omega)
    have hring : (r.max.y - r.min.y - 1) * (r.max.x - r.min.x)
        = (r.max.y - r.min.y) * (r.max.x - r.min.x) - (r.max.x - r.min.x) := by
      ring
    have hcomm : (r.max.y - r.min.y) * (r.max.x - r.min.x)
        = (r.max.x - r.min.x) * (r.max.y - r.min.y) := by ring
    constructor
    · omega
    · rw [hcast]; omega
  | @sub m g hf r ih =>
    by_cases hne : (r.intersect g.bounds).isEmpty
    · unfold Frame.SubFrame
      rw [if_pos hne]
      refine ⟨le_refl 0, fun hemp => by simp [Rect.isEmpty] at hemp,
        fun x y hxy => ?_⟩
      rw [ptIn_iff] at hxy
      simp only at hxy
      omega
    · rw [Bool.not_eq_true] at hne
      obtain ⟨hoff, hstr, hidx⟩ := ih
      have hmin : ptIn (r.intersect g.bounds).min.x (r.intersect g.bounds).min.y
          g.bounds = true := (ptIn_intersect.mp (nonempty_min_mem hne)).2
      have hbne : g.bounds.isEmpty = false := ptIn_nonempty hmin
      have hstr' := hstr hbne
      have hdx1 : 1 ≤ g.bounds.dx := by
        rw [isEmpty_false_iff] at hbne; unfold Rect.dx; omega
      unfold Frame.SubFrame
      rw [if_neg (by simp [hne])]
      obtain ⟨hm0, hmlt⟩ := hidx _ _ hmin
      refine ⟨by simp only; omega, ?_, ?_⟩
      · intro hemp
        simp only at hemp ⊢
        exact le_trans (intersect_dims hemp).1 hstr'
      · intro x y hxy
        have hxyf : ptIn x y g.bounds = true := (ptIn_intersect.mp hxy).2
        obtain ⟨hx0, hxlt⟩ := hidx _ _ hxyf
        have hkey : g.off + g.cellOffset (r.intersect g.bounds).min.x
              (r.intersect g.bounds).min.y
            + ((y - (r.intersect g.bounds).min.y) * g.stride
                + (x - (r.intersect g.bounds).min.x))
            = g.off + g.cellOffset x y := by
          unfold Frame.cellOffset; ring
        have hin' : ptIn x y (r.intersect g.bounds) = true := hxy
        rw [ptIn_iff] at hin'
        have hnn : 0 ≤ (y - (r.intersect g.bounds).min.y) * g.stride
            + (x - (r.intersect g.bounds).min.x) := by
          have := mul_nonneg (show (0:Int) ≤ y - (r.intersect g.bounds).min.y by omega)
            (show (0:Int) ≤ g.stride by omega)
          omega
        show 0 ≤ (y - (r.intersect g.bounds).min.y) * g.stride
            + (x - (r.intersect g.bounds).min.x) ∧
          g.off + g.cellOffset (r.intersect g.bounds).min.x
              (r.intersect g.bounds).min.y
            + ((y - (r.intersect g.bounds).min.y) * g.stride
                + (x - (r.intersect g.bounds).min.x)) < (m : Int)
        constructor
        · exact hnn
        · omega

theorem cellOffset_inj {n : Nat} {f : Frame} (hinv : FrameInv n f)
    {x1 y1 x2 y2 : Int} (h1 : ptIn x1 y1 f.bounds = true)
    (h2 : ptIn x2 y2 f.bounds = true) (hne : ¬(x1 = x2 ∧ y1 = y2)) :
    f.cellOffset x1 y1 ≠ f.cellOffset x2 y2 := by
  obtain ⟨-, hstr, -⟩ := hinv
  have hde := hstr (ptIn_nonempty h1)
  unfold Rect.dx at hde
  rw [ptIn_iff] at h1 h2
  intro heq
  unfold Frame.cellOffset at heq
  rcases eq_or_ne y1 y2 with hy | hy
  · subst hy
    have : x1 = x2 := by omega
    exact hne ⟨this, rfl⟩
  · have hst1 : 1 ≤ f.stride := by omega
    rcases lt_or_gt_of_ne hy with hlt | hlt
    · have hd : 1 ≤ y2 - y1 := by omega
      have hmul : f.stride ≤ (y2 - y1) * f.stride :=
        le_mul_of_one_le_left (by omega) hd
      have hring : (y2 - f.bounds.min.y) * f.stride
          - (y1 - f.bounds.min.y) * f.stride = (y2 - y1) * f.stride := by ring
      omega
    · have hd : 1 ≤ y1 - y2 := by omega
      have hmul : f.stride ≤ (y1 - y2) * f.stride :=
        le_mul_of_one_le_left (by omega) hd
      have hring : (y1 - f.bounds.min.y) * f.stride
          - (y2 - f.bounds.min.y) * f.stride = (y1 - y2) * f.stride := by ring
      omega

/-- Effect of `Set` on a later `At`, on any frame satisfying the
invariant: the written point reads back the written cell, every other
point is unchanged, and out-of-bounds writes change nothing. -/
theorem at_set {n : Nat} {f : Frame} {s : Store} (hlen : s.length = n)
    (hinv : FrameInv n f) (x' y' : Int) (c : Cell) (x y : Int) :
    f.At (f.Set s x' y' c) x y
      = if x = x' ∧ y = y' ∧ ptIn x y f.bounds = true then c
        else f.At s x y := by
  obtain ⟨hoff, hstr, hidx⟩ := hinv
  by_cases hw : ptIn x' y' f.bounds
  · by_cases hr : ptIn x y f.bounds
    · by_cases hpt : x = x' ∧ y = y'
      · obtain ⟨hx, hy⟩ := hpt
        subst hx; subst hy
        rw [if_pos ⟨rfl, rfl, hr⟩]
        unfold Frame.At Frame.Set
        rw [if_pos hr, if_pos hr]
        obtain ⟨h0, hlt⟩ := hidx _ _ hr
        exact storeGet_set_self (by omega) (by omega) c
      · rw [if_neg (by tauto)]
        unfold Frame.At Frame.Set
        rw [if_pos hr, if_pos hr, if_pos hw]
        refine storeGet_set_ne c ?_
        have := cellOffset_inj ⟨hoff, hstr, hidx⟩ hw hr (by tauto)
        omega
    · rw [if_neg (by tauto)]
      unfold Frame.At
      rw [if_neg hr, if_neg hr]
  · unfold Frame.Set
    rw [if_neg hw]
    rw [if_neg (by rintro ⟨rfl, rfl, hin⟩; exact hw hin)]

/-- `Set` preserves the store's length. -/
theorem set_length (f : Frame) (s : Store) (x y : Int) (c : Cell) :
    (f.Set s x y c).length = s.length := by
  unfold Frame.Set; split
  · exact storeSet_length s _ c
  · rfl

/-! ### Claim theorems: point access (C6), index safety (C5), aliasing (C4) -/

/-- C6: for every reachable frame, cell `c` and coordinate `(x,y)`: if
`(x,y)` is within the bounds then `at` after `set(x,y,c)` returns `c`; if
it is outside the bounds then `at` returns the zero cell regardless of the
store's contents, and `set` leaves the store (hence every cell) unchanged. -/
theorem set_then_at (s : Store) (f : Frame) (x y : Int) (c : Cell)
    (h : Reachable s.length f) :
    (ptIn x y f.bounds = true → f.At (f.Set s x y c) x y = c) ∧
    (ptIn x y f.bounds = false → f.At s x y = Cell.zero ∧ f.Set s x y c = s) := by
  have hinv := reachable_inv h
  constructor
  · intro hin
    rw [at_set rfl hinv x y c x y, if_pos ⟨rfl, rfl, hin⟩]
  · intro hout
    constructor
    · unfold Frame.At; rw [if_neg (by simp [hout])]
    · unfold Frame.Set; rw [if_neg (by simp [hout])]

theorem set_then_at_witness :
    frameC1.At (frameC1.Set (newData rectC1) 2 1 ⟨65, ⟨1, 2, 3⟩⟩) 2 1
      = ⟨65, ⟨1, 2, 3⟩⟩ :=
  (set_then_at (newData rectC1) frameC1 2 1 ⟨65, ⟨1, 2, 3⟩⟩
    (Reachable.root rectC1 (by decide))).1 (by decide)

/-- C5: for every frame obtained from `New` by a chain of `SubFrame`s, and
every in-bounds coordinate, the storage index
`(y - bounds.min.y) * stride + (x - bounds.min.x)` is non-negative and,
offset by the frame's slice start, below the allocated length of the
shared backing storage — so `At` and `Set` never access it out of range. -/
theorem reachable_cellOffset_in_range {n : Nat} {f : Frame} (h : Reachable n f)
    (x y : Int) (hin : ptIn x y f.bounds = true) :
    0 ≤ f.cellOffset x y ∧ f.off + f.cellOffset x y < (n : Int) :=
  (reachable_inv h).2.2 x y hin

theorem reachable_cellOffset_in_range_witness :
    0 ≤ frameC1.cellOffset 2 1 ∧
      frameC1.off + frameC1.cellOffset 2 1 < ((newData rectC1).length : Int) :=
  reachable_cellOffset_in_range (Reachable.root rectC1 (by decide)) 2 1 (by decide)

/-- C4: writing through a sub-frame with a non-empty intersected rectangle
and reading through the parent at the same absolute coordinate observes
the written cell, and symmetrically, because both index the same shared
store. -/
theorem subframe_alias (s : Store) (f : Frame) (r : Rect) (x y : Int) (c : Cell)
    (h : Reachable s.length f)
    (hne : (r.intersect f.bounds).isEmpty = false)
    (hin : ptIn x y (f.SubFrame r).bounds = true) :
    f.At ((f.SubFrame r).Set s x y c) x y = c ∧
    (f.SubFrame r).At (f.Set s x y c) x y = c := by
  have hinv := reachable_inv h
  have hsub : f.SubFrame r = ⟨f.off + f.cellOffset (r.intersect f.bounds).min.x
      (r.intersect f.bounds).min.y, r.intersect f.bounds, f.stride⟩ := by
    unfold Frame.SubFrame; rw [if_neg (by simp [hne])]
  have hinf : ptIn x y f.bounds = true := by
    have hri : ptIn x y (r.intersect f.bounds) = true := by
      rw [hsub] at hin; exact hin
    exact (ptIn_intersect.mp hri).2
  have hkey : (f.SubFrame r).off + (f.SubFrame r).cellOffset x y
      = f.off + f.cellOffset x y := by
    rw [hsub]; unfold Frame.cellOffset; simp only; ring
  obtain ⟨hoff, -, hidx⟩ := hinv
  obtain ⟨h0, hlt⟩ := hidx _ _ hinf
  constructor
  · unfold Frame.Set Frame.At
    rw [if_pos hin, if_pos hinf, hkey]
    exact storeGet_set_self (by omega) (by omega) c
  · unfold Frame.Set Frame.At
    rw [if_pos hinf, if_pos hin, hkey]
    exact storeGet_set_self (by omega) (by omega) c

theorem subframe_alias_witness :
    frameC1.At ((frameC1.SubFrame ⟨⟨1, 0⟩, ⟨3, 2⟩⟩).Set (newData rectC1) 2 1
        ⟨66, ⟨1, 0, 0⟩⟩) 2 1 = ⟨66, ⟨1, 0, 0⟩⟩ ∧
    (frameC1.SubFrame ⟨⟨1, 0⟩, ⟨3, 2⟩⟩).At (frameC1.Set (newData rectC1) 2 1
        ⟨66, ⟨1, 0, 0⟩⟩) 2 1 = ⟨66, ⟨1, 0, 0⟩⟩ :=
  subframe_alias (newData rectC1) frameC1 ⟨⟨1, 0⟩, ⟨3, 2⟩⟩ 2 1 ⟨66, ⟨1, 0, 0⟩⟩
    (Reachable.root rectC1 (by decide)) (by decide) (by decide)

/-! ### FillRect (C7) -/

theorem fillRow_length (f : Frame) (c : Cell) (yr : Int) :
    ∀ (m : Nat) (s : Store) (x0 : Int), (fillRow s f c yr x0 m).length = s.length := by
  intro m
  induction m with
  | zero => intro s x0; rfl
  | succ m ih =>
    intro s x0
    show (fillRow (f.Set s x0 yr c) f c yr (x0 + 1) m).length = _
    rw [ih, set_length]

theorem at_fillRow {n : Nat} {f : Frame} (hinv : FrameInv n f) (c : Cell) (yr : Int) :
    ∀ (m : Nat) (s : Store), s.length = n → ∀ (x0 : Int),
      (∀ k : Nat, k < m → ptIn (x0 + k) yr f.bounds = true) → ∀ (x y : Int),
    f.At (fillRow s f c yr x0 m) x y
      = if y = yr ∧ x0 ≤ x ∧ x < x0 + m then c else f.At s x y := by
  intro m
  induction m with
  | zero =>
    intro s hlen x0 hrow x y
    rw [if_neg (by omega)]; rfl
  | succ m ih =>
    intro s hlen x0 hrow x y
    have hin0 : ptIn x0 yr f.bounds = true := by
      have h0 := hrow 0 (by omega); simpa using h0
    have hlen' : (f.Set s x0 yr c).length = n := by rw [set_length]; exact hlen
    have hrow' : ∀ k : Nat, k < m → ptIn (x0 + 1 + k) yr f.bounds = true := by
      intro k hk
      have hcast : x0 + 1 + (k : Int) = x0 + ((k + 1 : Nat) : Int) := by
        push_cast; ring
      rw [hcast]; exact hrow (k + 1) (by omega)
    show f.At (fillRow (f.Set s x0 yr c) f c yr (x0 + 1) m) x y = _
    rw [ih (f.Set s x0 yr c) hlen' (x0 + 1) hrow' x y,
        at_set hlen hinv x0 yr c x y]
    by_cases hC : y = yr ∧ x0 ≤ x ∧ x < x0 + ((m + 1 : Nat) : Int)
    · rw [if_pos hC]
      by_cases hA : y = yr ∧ x0 + 1 ≤ x ∧ x < x0 + 1 + (m : Int)
      · rw [if_pos hA]
      · rw [if_neg hA]
        have hx : x = x0 := by omega
        have hy : y = yr := hC.1
        subst hx; subst hy
        rw [if_pos ⟨rfl, rfl, hin0⟩]
    · rw [if_neg hC]
      have hA : ¬(y = yr ∧ x0 + 1 ≤ x ∧ x < x0 + 1 + (m : Int)) := by omega
      have hB : ¬(x = x0 ∧ y = yr ∧ ptIn x y f.bounds = true) := by
        rintro ⟨rfl, rfl, -⟩
        omega
      rw [if_neg hA, if_neg hB]

theorem fillRows_length (f : Frame) (c : Cell) (xmin : Int) (w : Nat) :
    ∀ (m : Nat) (s : Store) (y0 : Int),
      (fillRows s f c xmin w y0 m).length = s.length := by
  intro m
  induction m with
  | zero => intro s y0; rfl
  | succ m ih =>
    intro s y0
    show (fillRows (fillRow s f c y0 xmin w) f c xmin w (y0 + 1) m).length = _
    rw [ih, fillRow_length]

theorem at_fillRows {n : Nat} {f : Frame} (hinv : FrameInv n f) (c : Cell)
    (xmin : Int) (w : Nat) :
    ∀ (m : Nat) (s : Store), s.length = n → ∀ (y0 : Int),
      (∀ j k : Nat, j < m → k < w → ptIn (xmin + k) (y0 + j) f.bounds = true) →
      ∀ (x y : Int),
    f.At (fillRows s f c xmin w y0 m) x y
      = if y0 ≤ y ∧ y < y0 + m ∧ xmin ≤ x ∧ x < xmin + w then c
        else f.At s x y := by
  intro m
  induction m with
  | zero =>
    intro s hlen y0 hrect x y
    rw [if_neg (by omega)]; rfl
  | succ m ih =>
    intro s hlen y0 hrect x y
    have hrow : ∀ k : Nat, k < w → ptIn (xmin + k) y0 f.bounds = true := by
      intro k hk
      have h0 := hrect 0 k (by omega) hk
      simpa using h0
    have hlen' : (fillRow s f c y0 xmin w).length = n := by
      rw [fillRow_length]; exact hlen
    have hrect' : ∀ j k : Nat, j < m → k < w →
        ptIn (xmin + k) (y0 + 1 + j) f.bounds = true := by
      intro j k hj hk
      have hcast : y0 + 1 + (j : Int) = y0 + ((j + 1 : Nat) : Int) := by
        push_cast; ring
      rw [hcast]; exact hrect (j + 1) k (by omega) hk
    show f.At (fillRows (fillRow s f c y0 xmin w) f c xmin w (y0 + 1) m) x y = _
    rw [ih (fillRow s f c y0 xmin w) hlen' (y0 + 1) hrect' x y,
        at_fillRow hinv c y0 w s hlen xmin hrow x y]
    by_cases hC : y0 ≤ y ∧ y < y0 + ((m + 1 : Nat) : Int) ∧ xmin ≤ x ∧ x < xmin + (w : Int)
    · rw [if_pos hC]
      by_cases hA : y0 + 1 ≤ y ∧ y < y0 + 1 + (m : Int) ∧ xmin ≤ x ∧ x < xmin + (w : Int)
      · rw [if_pos hA]
      · rw [if_neg hA, if_pos (by omega)]
    · rw [if_neg hC, if_neg (by omega), if_neg (by omega)]

/-- C7: after `fillRect(r, c)` on a reachable frame, every point of the
intersection of `r` with the frame's bounds reads back `c` through `at`,
every other point of the frame is unchanged, and an empty intersection
makes the whole operation a no-op on the store. -/
theorem fillRect_spec (s : Store) (f : Frame) (r : Rect) (c : Cell)
    (h : Reachable s.length f) :
    (∀ x y : Int, f.At (f.FillRect s r c) x y
        = if ptIn x y (f.bounds.intersect r) = true then c else f.At s x y) ∧
    ((f.bounds.intersect r).isEmpty = true → f.FillRect s r c = s) := by
  have hinv := reachable_inv h
  by_cases hemp : (f.bounds.intersect r).isEmpty
  · constructor
    · intro x y
      unfold Frame.FillRect
      rw [if_pos hemp]
      rw [if_neg (fun hin => by rw [ptIn_nonempty hin] at hemp; exact Bool.noConfusion hemp)]
    · intro _; unfold Frame.FillRect; rw [if_pos hemp]
  · rw [Bool.not_eq_true] at hemp
    constructor
    · intro x y
      unfold Frame.FillRect
      rw [if_neg (by simp [hemp])]
      have hdims : 1 ≤ (f.bounds.intersect r).dx ∧ 1 ≤ (f.bounds.intersect r).dy := by
        have hne := isEmpty_false_iff.mp hemp
        unfold Rect.dx Rect.dy; omega
      have hrect : ∀ j k : Nat, j < (f.bounds.intersect r).dy.toNat →
          k < (f.bounds.intersect r).dx.toNat →
          ptIn ((f.bounds.intersect r).min.x + k) ((f.bounds.intersect r).min.y + j)
            f.bounds = true := by
        intro j k hj hk
        have hin : ptIn ((f.bounds.intersect r).min.x + k)
            ((f.bounds.intersect r).min.y + j) (f.bounds.intersect r) = true := by
          rw [ptIn_iff]
          unfold Rect.dx Rect.dy at *
          omega
        exact (ptIn_intersect.mp hin).1
      rw [at_fillRows hinv c (f.bounds.intersect r).min.x
          (f.bounds.intersect r).dx.toNat (f.bounds.intersect r).dy.toNat s rfl
          (f.bounds.intersect r).min.y hrect x y]
      have hiff : ((f.bounds.intersect r).min.y ≤ y ∧
            y < (f.bounds.intersect r).min.y + ((f.bounds.intersect r).dy.toNat : Int) ∧
            (f.bounds.intersect r).min.x ≤ x ∧
            x < (f.bounds.intersect r).min.x + ((f.bounds.intersect r).dx.toNat : Int))
          ↔ ptIn x y (f.bounds.intersect r) = true := by
        rw [ptIn_iff]
        unfold Rect.dx Rect.dy at *
        omega
      exact if_congr hiff rfl rfl
    · intro habs; rw [habs] at hemp; exact Bool.noConfusion hemp

theorem fillRect_spec_witness :
    frameC1.At (frameC1.FillRect (newData rectC1) ⟨⟨0, 0⟩, ⟨2, 1⟩⟩ ⟨77, ⟨1, 1, 1⟩⟩) 0 0
      = ⟨77, ⟨1, 1, 1⟩⟩ := by
  have h := (fillRect_spec (newData rectC1) frameC1 ⟨⟨0, 0⟩, ⟨2, 1⟩⟩ ⟨77, ⟨1, 1, 1⟩⟩
    (Reachable.root rectC1 (by decide))).1 0 0
  rw [if_pos (by decide)] at h
  exact h

/-! ### Key decoder (C3) -/

theorem parseCSI_eq (l : List Nat) : parseCSI l = csiTable l := by
  rcases l with _ | ⟨a, t⟩
  · rfl
  · unfold parseCSI csiTable
    rw [if_neg (by simp)]

theorem parseSS3_eq (l : List Nat) : parseSS3 l = ss3Spec l := by
  rcases l with _ | ⟨a, t⟩
  · rfl
  · unfold parseSS3 ss3Spec
    rw [if_neg (by simp)]

theorem parseESC_eq (l : List Nat) : parseESC l = escSpec l := by
  rcases l with _ | ⟨a, t⟩
  · rfl
  · unfold parseESC escSpec
    rw [if_neg (by simp)]
    simp only [parseCSI_eq, parseSS3_eq]

/-- C3: `parseKey` implements the 3-level dispatch exactly as the spec's
reference decoder `decodeSpec` describes it: a non-ESC first byte is its
own ordinal value, a lone ESC is the Escape key, `ESC [` matches the
remaining bytes literally against the fixed CSI table, `ESC O` maps a
first remaining byte `H`/`F` to Home/End, and every other byte sequence —
the empty one included — yields the unknown code 0; no input is an error. -/
theorem parseKey_spec (buf : List Nat) : parseKey buf = decodeSpec buf := by
  rcases buf with _ | ⟨b, rest⟩
  · rfl
  · unfold parseKey decodeSpec
    rw [if_neg (by simp)]
    simp only [parseESC_eq]

/-! ### Colour formatting (C9) -/

/-- C9: `FormatColor` panics (`none`) for every component outside its
range — attribute above 8, foreground above 7, background above 7 (the
lower bounds are vacuous for `uint8`) — and never clamps; for every
in-range triple it returns exactly `ESC [ a ; 30+f ; 40+b m`. -/
theorem formatColor_spec (a f b : Nat) :
    ((8 < a ∨ 7 < f ∨ 7 < b) → FormatColor a f b = none) ∧
    (a ≤ 8 → f ≤ 7 → b ≤ 7 →
      FormatColor a f b
        = some ("\x1b[" ++ toString a ++ ";" ++ toString (30 + f) ++ ";"
                ++ toString (40 + b) ++ "m")) := by
  constructor
  · intro h
    unfold FormatColor
    split_ifs with h1 h2 h3 <;> first | rfl | omega
  · intro h1 h2 h3
    unfold FormatColor
    rw [if_neg (by omega), if_neg (by omega), if_neg (by omega),
        Nat.add_comm 30 f, Nat.add_comm 40 b]

theorem formatColor_spec_witness :
    FormatColor 0 1 0 = some "\x1b[0;31;40m" ∧ FormatColor 9 0 0 = none := by
  constructor
  · have h := (formatColor_spec 0 1 0).2 (by decide) (by decide) (by decide)
    rw [h]
    decide
  · exact (formatColor_spec 9 0 0).1 (by decide)

/-! ### PutText (C10) -/

theorem xAfter_le (l : List PutItem) : ∀ x : Int, x ≤ xAfter x l := by
  induction l with
  | nil => intro x; exact le_refl x
  | cons v rest ih =>
    intro x
    cases v with
    | str o =>
      refine le_trans ?_ (ih (x + o.length))
      have : (0 : Int) ≤ (o.length : Int) := by positivity
      omega
    | color c => exact ih x
    | other => exact ih x

theorem putStr_snd (f : Frame) (y : Int) (col : Color) :
    ∀ (l : List Char) (s : Store) (x : Int),
      (putStr f s y col x l).2 = x + l.length := by
  intro l
  induction l with
  | nil => intro s x; simp [putStr]
  | cons ch rest ih =>
    intro s x
    show (putStr f (f.Set s x y ⟨(ch.toNat : Int), col⟩) y col (x + 1) rest).2 = _
    rw [ih]
    simp only [List.length_cons]
    omega

theorem putLoop_none_iff (f : Frame) (y : Int) :
    ∀ (vals : List PutItem) (s : Store) (x : Int) (col : Color),
      putLoop f s y x col vals = none ↔
        ∃ i : Nat, vals[i]? = some PutItem.other ∧
          xAfter x (vals.take i) < f.bounds.max.x := by
  intro vals
  induction vals with
  | nil =>
    intro s x col
    simp [putLoop]
  | cons v rest ih =>
    intro s x col
    unfold putLoop
    by_cases hx : f.bounds.max.x ≤ x
    · rw [if_pos hx]
      constructor
      · intro h; exact Option.noConfusion h
      · rintro ⟨i, hi, hlt⟩
        have hmono := xAfter_le ((v :: rest).take i) x
        omega
    · rw [if_neg hx]
      cases v with
      | other =>
        constructor
        · intro _
          refine ⟨0, by simp, ?_⟩
          show x < f.bounds.max.x
          omega
        · intro _; rfl
      | color c =>
        rw [show (match PutItem.color c with
            | PutItem.str o =>
              let p := putStr f s y col x o.data
              putLoop f p.1 y p.2 col rest
            | PutItem.color c => putLoop f s y x c rest
            | PutItem.other => none) = putLoop f s y x c rest from rfl]
        rw [ih s x c]
        constructor
        · rintro ⟨j, hj, hlt⟩
          exact ⟨j + 1, by simpa using hj, by simpa using hlt⟩
        · rintro ⟨i, hi, hlt⟩
          rcases i with _ | j
          · simp at hi
          · exact ⟨j, by simpa using hi, by simpa using hlt⟩
      | str o =>
        rw [show (match PutItem.str o with
            | PutItem.str o =>
              let p := putStr f s y col x o.data
              putLoop f p.1 y p.2 col rest
            | PutItem.color c => putLoop f s y x c rest
            | PutItem.other => none)
          = putLoop f (putStr f s y col x o.data).1 y
              (putStr f s y col x o.data).2 col rest from rfl]
        rw [putStr_snd f y col o.data s x, ih (putStr f s y col x o.data).1
          (x + o.data.length) col]
        constructor
        · rintro ⟨j, hj, hlt⟩
          refine ⟨j + 1, by simpa using hj, ?_⟩
          show xAfter (x + (o.length : Int)) (rest.take j) < f.bounds.max.x
          exact hlt
        · rintro ⟨i, hi, hlt⟩
          rcases i with _ | j
          · simp at hi
          · refine ⟨j, by simpa using hi, ?_⟩
            have hshow : xAfter x ((PutItem.str o :: rest).take (j + 1))
                = xAfter (x + (o.length : Int)) (rest.take j) := rfl
            rw [hshow] at hlt
            exact hlt

/-- C10: `PutText` panics (`none`) exactly when the starting row `y` lies
within the frame's vertical bounds and some item of `vals` is neither a
string nor a colour, with the running cursor column still short of the
frame's right bound when that item is encountered (`xAfter` is the column
after the items before it); in every other case the call returns silently. -/
theorem putText_panic_iff (f : Frame) (s : Store) (x y : Int)
    (vals : List PutItem) :
    f.PutText s x y vals = none ↔
      (f.bounds.min.y ≤ y ∧ y < f.bounds.max.y) ∧
      ∃ i : Nat, vals[i]? = some PutItem.other ∧
        xAfter x (vals.take i) < f.bounds.max.x := by
  unfold Frame.PutText
  by_cases hy : y < f.bounds.min.y ∨ f.bounds.max.y ≤ y
  · rw [if_pos hy]
    constructor
    · intro h; exact Option.noConfusion h
    · rintro ⟨⟨h1, h2⟩, -⟩; omega
  · rw [if_neg hy]
    rw [putLoop_none_iff f y vals s x Color.zero]
    constructor
    · intro h; exact ⟨by omega, h⟩
    · rintro ⟨-, h⟩; exact h

/-! ### PrintRect row structure (C2) -/

theorem printRow_filter_moveTo (s : Store) (f : Frame) (y : Int) :
    ∀ (m : Nat) (x : Int) (col : Color),
      (printRow s f y x col m).1.filter isMoveTo = [] := by
  intro m
  induction m with
  | zero => intro x col; rfl
  | succ m ih =>
    intro x col
    simp only [printRow]
    split <;> simp [isMoveTo, ih]

theorem printRows_filter_moveTo (s : Store) (f : Frame) (xmin : Int) (w : Nat) :
    ∀ (m : Nat) (y : Int) (col : Color),
      (printRows s f xmin w y col m).filter isMoveTo
        = (intRange y m).map (fun t => POut.moveTo (t + 1) xmin) := by
  intro m
  induction m with
  | zero => intro y col; rfl
  | succ m ih =>
    intro y col
    simp only [printRows, intRange, List.map_cons]
    rw [List.filter_cons_of_pos (by rfl), List.filter_append,
        printRow_filter_moveTo, List.nil_append, ih]

/-- C2 (amended): `printRect` emits one cursor-position escape per row of
`r` itself — not of the intersection of `r` with the frame's bounds — in
top-to-bottom order; each row begins with `FormatMoveTo(y+1, r.Min.X)`,
the line offset by +1 but the column passed through as the 0-indexed
`r.Min.X`, not converted to a 1-indexed form. -/
theorem printRect_rows (s : Store) (f : Frame) (r : Rect) :
    (printRectTokens s f r).filter isMoveTo
      = (intRange r.min.y r.dy.toNat).map (fun t => POut.moveTo (t + 1) r.min.x) ∧
    (r.min.y < r.max.y →
      (printRectTokens s f r).head? = some (POut.moveTo (r.min.y + 1) r.min.x)) := by
  constructor
  · exact printRows_filter_moveTo s f r.min.x r.dx.toNat r.dy.toNat r.min.y Color.zero
  · intro hlt
    unfold printRectTokens
    obtain ⟨k, hk⟩ : ∃ k, r.dy.toNat = k + 1 :=
      ⟨r.dy.toNat - 1, by unfold Rect.dy; omega⟩
    rw [hk]
    simp [printRows]

theorem printRect_rows_witness :
    (printRectTokens (newData ⟨⟨0, 0⟩, ⟨1, 1⟩⟩) (Frame.New ⟨⟨0, 0⟩, ⟨1, 1⟩⟩)
        ⟨⟨0, 0⟩, ⟨1, 2⟩⟩).head?
      = some (POut.moveTo ((0 : Int) + 1) 0) :=
  (printRect_rows (newData ⟨⟨0, 0⟩, ⟨1, 1⟩⟩) (Frame.New ⟨⟨0, 0⟩, ⟨1, 1⟩⟩)
    ⟨⟨0, 0⟩, ⟨1, 2⟩⟩).2 (by decide)

/-- C2 (counterexample): for a frame of bounds `(0,0)-(1,1)` and
`r = (0,0)-(1,2)`, the intersection has exactly one row starting at
column 0, so the claim predicts exactly the one cursor-position escape
`moveTo 1 1` (line 0+1, column 0 in 1-indexed form); the code instead
emits two rows — one per row of `r`, including the out-of-bounds one —
with the raw column 0: `moveTo 1 0` and `moveTo 2 0`. -/
theorem printRect_rows_counterexample :
    (printRectTokens (newData ⟨⟨0, 0⟩, ⟨1, 1⟩⟩) (Frame.New ⟨⟨0, 0⟩, ⟨1, 1⟩⟩)
        ⟨⟨0, 0⟩, ⟨1, 2⟩⟩).filter isMoveTo
      = [POut.moveTo 1 0, POut.moveTo 2 0] ∧
    (printRectTokens (newData ⟨⟨0, 0⟩, ⟨1, 1⟩⟩) (Frame.New ⟨⟨0, 0⟩, ⟨1, 1⟩⟩)
        ⟨⟨0, 0⟩, ⟨1, 2⟩⟩).filter isMoveTo
      ≠ [POut.moveTo 1 1] := by
  constructor
  · decide
  · decide

/-! ### Colour run-length compression (C8) -/

theorem lastSet_append (b : List POut) : ∀ (a : List POut) (d : Color),
    lastSet d (a ++ b) = lastSet (lastSet d a) b := by
  intro a
  induction a with
  | nil => intro d; rfl
  | cons t ts ih =>
    intro d
    cases t with
    | moveTo l c => exact ih d
    | setColor c => exact ih c
    | glyph g => exact ih d

theorem glyphColors_append (b : List POut) : ∀ (a : List POut) (d : Color),
    glyphColors d (a ++ b) = glyphColors d a ++ glyphColors (lastSet d a) b := by
  intro a
  induction a with
  | nil => intro d; rfl
  | cons t ts ih =>
    intro d
    cases t with
    | moveTo l c => exact ih d
    | setColor c => exact ih c
    | glyph g =>
      show d :: glyphColors d (ts ++ b) = d :: glyphColors d ts ++ _
      rw [ih d]
      rfl

theorem noRedundant_append {b : List POut} : ∀ (a : List POut) (d : Color),
    noRedundant d a → noRedundant (lastSet d a) b → noRedundant d (a ++ b) := by
  intro a
  induction a with
  | nil => intro d _ hb; exact hb
  | cons t ts ih =>
    intro d ha hb
    cases t with
    | moveTo l c => exact ih d ha hb
    | setColor c => exact ⟨ha.1, ih c ha.2 hb⟩
    | glyph g => exact ih d ha hb

theorem printRow_colors (s : Store) (f : Frame) (y : Int) :
    ∀ (m : Nat) (x : Int) (col : Color),
      glyphColors col (printRow s f y x col m).1 = cellColorsRow s f y x m ∧
      (printRow s f y x col m).2 = lastSet col (printRow s f y x col m).1 ∧
      noRedundant col (printRow s f y x col m).1 := by
  intro m
  induction m with
  | zero => intro x col; exact ⟨rfl, rfl, trivial⟩
  | succ m ih =>
    intro x col
    have hstep : printRow s f y x col (m + 1)
        = if col = (f.At s x y).C then
            (POut.glyph (if (f.At s x y).R = 0 then 32 else (f.At s x y).R) ::
              (printRow s f y (x + 1) col m).1, (printRow s f y (x + 1) col m).2)
          else
            (POut.setColor (f.At s x y).C ::
              POut.glyph (if (f.At s x y).R = 0 then 32 else (f.At s x y).R) ::
              (printRow s f y (x + 1) (f.At s x y).C m).1,
              (printRow s f y (x + 1) (f.At s x y).C m).2) := rfl
    by_cases hc : col = (f.At s x y).C
    · rw [hstep, if_pos hc]
      obtain ⟨ih1, ih2, ih3⟩ := ih (x + 1) col
      refine ⟨?_, ih2, ih3⟩
      show col :: glyphColors col (printRow s f y (x + 1) col m).1
        = (f.At s x y).C :: cellColorsRow s f y (x + 1) m
      rw [ih1, hc]
    · rw [hstep, if_neg hc]
      obtain ⟨ih1, ih2, ih3⟩ := ih (x + 1) (f.At s x y).C
      refine ⟨?_, ih2, ⟨hc, ih3⟩⟩
      show (f.At s x y).C :: glyphColors (f.At s x y).C
          (printRow s f y (x + 1) (f.At s x y).C m).1
        = (f.At s x y).C :: cellColorsRow s f y (x + 1) m
      rw [ih1]

theorem printRows_colors (s : Store) (f : Frame) (xmin : Int) (w : Nat) :
    ∀ (m : Nat) (y : Int) (col : Color),
      glyphColors col (printRows s f xmin w y col m)
          = cellColorsRows s f xmin w y m ∧
      noRedundant col (printRows s f xmin w y col m) := by
  intro m
  induction m with
  | zero => intro y col; exact ⟨rfl, trivial⟩
  | succ m ih =>
    intro y col
    obtain ⟨hrow1, hrow2, hrow3⟩ := printRow_colors s f y w xmin col
    obtain ⟨ih1, ih2⟩ := ih (y + 1) (printRow s f y xmin col w).2
    constructor
    · show glyphColors col ((printRow s f y xmin col w).1
          ++ printRows s f xmin w (y + 1) (printRow s f y xmin col w).2 m)
        = cellColorsRow s f y xmin w ++ cellColorsRows s f xmin w (y + 1) m
      rw [glyphColors_append, hrow1, ← hrow2, ih1]
    · show noRedundant col ((printRow s f y xmin col w).1
          ++ printRows s f xmin w (y + 1) (printRow s f y xmin col w).2 m)
      refine noRedundant_append _ col hrow3 ?_
      rw [← hrow2]
      exact ih2

/-- C8: during a single `printRect` render (the running colour starting
from the zero value, and threaded through nothing but this render's own
token list, so successive renders are independent by construction), the
colour in effect at each emitted glyph equals the scanned cell's effective
colour (`glyphColors … = rectCellColors …`, so a colour escape is emitted
whenever the colour changes), and every emitted colour escape differs from
the colour already in effect at that point (`noRedundant`, so an unchanged
colour code is never repeated, mid-row or anywhere else). -/
theorem printRect_color_compression (s : Store) (f : Frame) (r : Rect) :
    glyphColors Color.zero (printRectTokens s f r) = rectCellColors s f r ∧
    noRedundant Color.zero (printRectTokens s f r) :=
  printRows_colors s f r.min.x r.dx.toNat r.dy.toNat r.min.y Color.zero

/-! ### The §8 scenario (C1) -/

/-- C1 (counterexample): in the §8 scenario the rendered output does not
begin with a move-to-(1,1) escape sequence: `PrintRect` emits
`FormatMoveTo(y+1, r.Min.X)` with the column passed through unconverted,
so the output begins with `ESC[1;0H` (line 1, column 0), not `ESC[1;1H`. -/
theorem printRect_scenario_counterexample :
    (frameC1.PrintRect storeC1 rectC1).map
        (fun o => beginsWith o (FormatMoveTo 1 1)) = some false := by
  decide

/-- C1 (amended): in the §8 scenario — frame bounds `(0,0)-(3,2)`,
cleared, `set(1,1, Cell{'X', Color{0,RED,BLACK}})`, `printRect` over the
full bounds — the output begins with the move-to-line-1-column-0 sequence
`ESC[1;0H` (the column is `r.Min.X` as given, not 1-indexed), contains
exactly one colour escape for RED on BLACK (`ESC[0;31;40m`) immediately
before the `X` glyph, and renders a space for every other cell (the token
list makes the glyph/escape structure explicit; the string is its exact
rendering). -/
theorem printRect_scenario :
    printRectTokens storeC1 frameC1 rectC1
      = [POut.moveTo 1 0, POut.glyph 32, POut.glyph 32, POut.glyph 32,
         POut.moveTo 2 0, POut.glyph 32, POut.setColor ⟨0, 1, 0⟩, POut.glyph 88,
         POut.setColor ⟨0, 0, 0⟩, POut.glyph 32] ∧
    frameC1.PrintRect storeC1 rectC1
      = some "\x1b[1;0H   \x1b[2;0H \x1b[0;31;40mX\x1b[0;30;40m " ∧
    beginsWith "\x1b[1;0H   \x1b[2;0H \x1b[0;31;40mX\x1b[0;30;40m "
      (FormatMoveTo 1 0) = true := by
  refine ⟨by decide, by decide, by decide⟩
